import Mathlib

/-!
Formal model of `wordsearch.py`, a word-search puzzle generator based on
recursive backtracking.

In the Python source a grid cell holds a string: either the debug
placeholder `EMPTY` (the literal two-character string with bytes
C3 82 C2 B7, i.e. the characters U+00C2 and U+00B7) or a single letter
written from a word.  We therefore model a cell as a `List Char`; a letter
cell is a one-element list, so no letter cell can ever equal the
two-character placeholder.  Mutation of the grid is modelled by explicit
state passing, and the `random.Random` stream by an explicit stream of
naturals together with a cursor position.
-/

/-- A grid cell: a Python string, modelled as its list of characters. -/
abbrev Cell := List Char

/-- Source constant `EMPTY = "Â·"` — the two-character placeholder marking an unused cell. -/
def EMPTY : Cell := [Char.ofNat 194, Char.ofNat 183]

/-- Source type `Direction = Tuple[int, int]`. -/
abbrev Direction := Int × Int

/-- Source type `Placement = Tuple[int, int, Direction]` — row, col, direction. -/
abbrev Placement := Int × Int × Direction

/-- The grid: a list of rows of cells. -/
abbrev Grid := List (List Cell)

/-- Source list `DIRECTIONS_8`. -/
def DIRECTIONS_8 : List Direction :=
  [(0, 1), (0, -1), (1, 0), (-1, 0), (1, 1), (1, -1), (-1, 1), (-1, -1)]

/-- Source function `make_empty_grid(size)`: a size × size grid of `EMPTY` placeholders. -/
def make_empty_grid (size : Nat) : Grid :=
  List.replicate size (List.replicate size EMPTY)

/-- Source function `in_bounds(size, r, c)`: `0 <= r < size and 0 <= c < size`. -/
def in_bounds (size : Nat) (r c : Int) : Bool :=
  decide (0 ≤ r ∧ r < (size : Int) ∧ 0 ≤ c ∧ c < (size : Int))

/-- Read `grid[r][c]` at natural-number coordinates (default `EMPTY` when out
of range; the program only reads in-bounds cells). -/
def cellAt (g : Grid) (r c : Nat) : Cell :=
  (g.getD r []).getD c EMPTY

/-- Write `grid[r][c] = v` at natural-number coordinates (no-op out of range;
the program only writes in-bounds cells). -/
def setAt (g : Grid) (r c : Nat) (v : Cell) : Grid :=
  g.set r ((g.getD r []).set c v)

/-- Read `grid[rr][cc]` at the integer coordinates the search computes. -/
def getCell (g : Grid) (r c : Int) : Cell :=
  cellAt g r.toNat c.toNat

/-- Write `grid[rr][cc] = v` at integer coordinates. -/
def setCell (g : Grid) (r c : Int) (v : Cell) : Grid :=
  setAt g r.toNat c.toNat v

/-- The loop body of `can_place_word`: check letters `word[i:]` starting at
loop counter `i` (mirrors `for i, ch in enumerate(word)`). -/
def can_place_go (g : Grid) (r c dr dc : Int) : Nat → List Char → Bool
  | _, [] => true
  | i, ch :: rest =>
    let rr := r + (i : Int) * dr
    let cc := c + (i : Int) * dc
    in_bounds g.length rr cc &&
      (decide (getCell g rr cc = EMPTY) || decide (getCell g rr cc = [ch])) &&
      can_place_go g r c dr dc (i + 1) rest

/-- Source function `can_place_word(grid, word, r, c, dr, dc)`. -/
def can_place_word (g : Grid) (word : List Char) (r c dr dc : Int) : Bool :=
  can_place_go g r c dr dc 0 word

/-- The loop body of `place_word`: write `word[i:]` starting at loop counter
`i`, recording the coordinates changed from `EMPTY`. -/
def place_go (r c dr dc : Int) : Grid → Nat → List Char → Grid × List (Int × Int)
  | g, _, [] => (g, [])
  | g, i, ch :: rest =>
    let rr := r + (i : Int) * dr
    let cc := c + (i : Int) * dc
    if getCell g rr cc = EMPTY then
      let res := place_go r c dr dc (setCell g rr cc [ch]) (i + 1) rest
      (res.1, (rr, cc) :: res.2)
    else
      place_go r c dr dc g (i + 1) rest

/-- Source function `place_word(grid, word, r, c, dr, dc)`: the updated grid together with the
list of coordinates changed from `EMPTY` to a letter. -/
def place_word (g : Grid) (word : List Char) (r c dr dc : Int) :
    Grid × List (Int × Int) :=
  place_go r c dr dc g 0 word

/-- Source function `undo_changes(grid, changed)`: reset the recorded cells to `EMPTY`. -/
def undo_changes : Grid → List (Int × Int) → Grid
  | g, [] => g
  | g, p :: rest => undo_changes (setCell g p.1 p.2 EMPTY) rest

/-- Source function `all_possible_placements(grid, word, directions)`. -/
def all_possible_placements (g : Grid) (word : List Char)
    (directions : List Direction) : List Placement :=
  (List.range g.length).flatMap fun r =>
    (List.range g.length).flatMap fun c =>
      directions.filterMap fun d =>
        if d.1 = 0 ∧ d.2 = 0 then none
        else if can_place_word g word (r : Int) (c : Int) d.1 d.2 then
          some ((r : Int), (c : Int), d)
        else none

/-- The seeded RNG: an abstract stream of naturals with a cursor, standing for
the `random.Random` object's internal generator. -/
structure Rng where
  stream : Nat → Nat
  pos : Nat

/-- One draw of `_randbelow(n)`: the next raw value reduced mod `n`. -/
def randbelow (rng : Rng) (n : Nat) : Nat × Rng :=
  (rng.stream rng.pos % n, ⟨rng.stream, rng.pos + 1⟩)

/-- Exchange `x[i], x[j] = x[j], x[i]` on a list. -/
def swap_at {α : Type} (l : List α) (i j : Nat) : List α :=
  match l[i]?, l[j]? with
  | some a, some b => (l.set i b).set j a
  | _, _ => l

/-- Fisher–Yates rounds of `random.shuffle`: for `i` from `k` down to `1`,
draw `j = _randbelow(i+1)` and swap positions `i` and `j`. -/
def shuffle_from {α : Type} : List α → Rng → Nat → List α × Rng
  | l, rng, 0 => (l, rng)
  | l, rng, k + 1 =>
    let jr := randbelow rng (k + 2)
    shuffle_from (swap_at l (k + 1) jr.1) jr.2 k

/-- Model of `rng.shuffle(l)` (returning the permuted list and the advanced stream). -/
def shuffle {α : Type} (l : List α) (rng : Rng) : List α × Rng :=
  shuffle_from l rng (l.length - 1)

/-- Constant `string.ascii_uppercase` as a list of characters. -/
def ascii_uppercase : List Char :=
  ['A', 'B', 'C', 'D', 'E', 'F', 'G', 'H', 'I', 'J', 'K', 'L', 'M',
   'N', 'O', 'P', 'Q', 'R', 'S', 'T', 'U', 'V', 'W', 'X', 'Y', 'Z']

/-- Model of `rng.choice(seq)`: `seq[_randbelow(len(seq))]`. -/
def choice (l : List Char) (rng : Rng) : Char × Rng :=
  let jr := randbelow rng l.length
  (l.getD jr.1 'A', jr.2)

/-- The loop of `backtrack_place_words` over the shuffled candidate list:
place, recurse via `recur`, and on failure undo and try the next candidate. -/
def try_placements (recur : Grid → Rng → Bool × Grid × Rng) (word : List Char) :
    List Placement → Grid → Rng → Bool × Grid × Rng
  | [], g, rng => (false, g, rng)
  | (r, c, d) :: ps, g, rng =>
    let pr := place_word g word r c d.1 d.2
    let res := recur pr.1 rng
    if res.1 then res
    else try_placements recur word ps (undo_changes res.2.1 pr.2) res.2.2

/-- Source function `backtrack_place_words` acting on the remaining words `words[idx:]`:
returns the success flag, the resulting grid state (also on failure, where
the source's mutations have all been undone) and the advanced RNG. -/
def backtrack_go (directions : List Direction) :
    List (List Char) → Grid → Rng → Bool × Grid × Rng
  | [], g, rng => (true, g, rng)
  | word :: rest, g, rng =>
    let sh := shuffle (all_possible_placements g word directions) rng
    try_placements (backtrack_go directions rest) word sh.1 g sh.2

/-- Source function `backtrack_place_words(grid, words, idx, directions, rng)`. -/
def backtrack_place_words (g : Grid) (words : List (List Char)) (idx : Nat)
    (directions : List Direction) (rng : Rng) : Bool × Grid × Rng :=
  backtrack_go directions (words.drop idx) g rng

/-- The body of `fill_empty_with_random_letters` over an explicit list of
cell coordinates to visit. -/
def fill_go : Grid → Rng → List (Nat × Nat) → Grid × Rng
  | g, rng, [] => (g, rng)
  | g, rng, rc :: rest =>
    if cellAt g rc.1 rc.2 = EMPTY then
      let cr := choice ascii_uppercase rng
      fill_go (setAt g rc.1 rc.2 [cr.1]) cr.2 rest
    else
      fill_go g rng rest

/-- Source function `fill_empty_with_random_letters(grid, rng)`: replace every `EMPTY` cell
with a random uppercase letter, scanning rows then columns. -/
def fill_empty_with_random_letters (g : Grid) (rng : Rng) : Grid × Rng :=
  fill_go g rng
    ((List.range g.length).flatMap fun r =>
      (List.range g.length).map fun c => (r, c))

/-- Python `str.isspace` on the ASCII whitespace characters relevant here. -/
def py_isspace (ch : Char) : Bool :=
  ch == ' ' || ch == '\t' || ch == '\n' || ch == '\r' ||
    ch == Char.ofNat 11 || ch == Char.ofNat 12

/-- Python `w.strip()`: drop leading and trailing whitespace. -/
def py_strip (w : List Char) : List Char :=
  ((w.dropWhile py_isspace).reverse.dropWhile py_isspace).reverse

/-- Normalisation `w.strip().upper().replace(" ", "")`. -/
def clean_word (w : List Char) : List Char :=
  ((py_strip w).map Char.toUpper).filter fun ch => !(ch == ' ')

/-- Normalisation `[w.strip().upper().replace(" ", "") for w in words if w.strip()]`. -/
def normalize_words (words : List (List Char)) : List (List Char) :=
  (words.filter fun w => !(py_strip w).isEmpty).map clean_word

/-- One step of a stable descending-length insertion sort: insert a word
after every entry at least as long, before the first strictly shorter one. -/
def insert_len_desc (w : List Char) : List (List Char) → List (List Char)
  | [] => [w]
  | v :: vs =>
    if w.length ≤ v.length then v :: insert_len_desc w vs
    else w :: v :: vs

/-- Model of `cleaned.sort(key=len, reverse=True)`: stable sort by descending length
(equal lengths keep their original relative order, as Python's sort does). -/
def sort_len_desc (ws : List (List Char)) : List (List Char) :=
  ws.foldl (fun acc w => insert_len_desc w acc) []

/-- Source function `generate_wordsearch(words, size, allow_diagonals, seed)`.  The fatal
`ValueError` is modelled as `none`; the Mersenne-Twister stream produced by
`random.Random(seed)` (library code outside this repository) is abstracted as
`mt seed`, an arbitrary deterministic function of the seed. -/
def generate_wordsearch (words : List (List Char)) (size : Nat)
    (allow_diagonals : Bool) (mt : Nat → Nat → Nat) (seed : Nat) : Option Grid :=
  let rng : Rng := ⟨mt seed, 0⟩
  let cleaned := sort_len_desc (normalize_words words)
  let grid := make_empty_grid size
  let directions :=
    if allow_diagonals then DIRECTIONS_8 else [(0, 1), (0, -1), (1, 0), (-1, 0)]
  let res := backtrack_place_words grid cleaned 0 directions rng
  if res.1 then some (fill_empty_with_random_letters res.2.1 res.2.2).1
  else none

/-- Well-formedness of a grid: every row has the grid's own length
(the source only ever builds square grids). -/
def grid_wf (g : Grid) : Prop :=
  ∀ row ∈ g, row.length = g.length

/-- Relation `grows g g'`: the grid `g'` is `g` with some `EMPTY` cells
overwritten — all non-`EMPTY` cells of `g` survive unchanged, and the shape
is unchanged. -/
def grows (g g' : Grid) : Prop :=
  g'.length = g.length ∧
    ∀ x y : Int, getCell g x y ≠ EMPTY → getCell g' x y = getCell g x y

/-- Predicate `appears g w dirs`: the word `w` is written contiguously in
`g` along some direction from `dirs`, starting at some in-bounds cell. -/
def appears (g : Grid) (w : List Char) (dirs : List Direction) : Prop :=
  ∃ (r c : Int) (d : Direction), d ∈ dirs ∧
    ∀ i < w.length,
      in_bounds g.length (r + (i : Int) * d.1) (c + (i : Int) * d.2) = true ∧
        getCell g (r + (i : Int) * d.1) (c + (i : Int) * d.2) = [w.getD i 'A']

/-! ## Basic grid lemmas -/

/-- A letter cell (a one-character string) is never the two-character
placeholder. -/
theorem single_ne_EMPTY (ch : Char) : [ch] ≠ EMPTY := by
  intro h
  exact absurd (congrArg List.length h) (by simp [EMPTY])

theorem cellAt_eq (g : Grid) (r c : Nat) :
    cellAt g r c = ((g[r]?.getD [])[c]?).getD EMPTY := by
  simp [cellAt, List.getD_eq_getElem?_getD]

theorem length_setAt (g : Grid) (r c : Nat) (v : Cell) :
    (setAt g r c v).length = g.length := by
  simp [setAt]

theorem setAt_oob {g : Grid} {r : Nat} (hr : g.length ≤ r) (c : Nat) (v : Cell) :
    setAt g r c v = g := by
  simp [setAt, List.set_eq_of_length_le hr]

theorem getD_row_eq {g : Grid} {r : Nat} (hr : r < g.length) :
    g.getD r [] = g[r] := by
  simp [List.getD_eq_getElem?_getD, List.getElem?_eq_getElem hr]

theorem grid_wf_setAt {g : Grid} (h : grid_wf g) (r c : Nat) (v : Cell) :
    grid_wf (setAt g r c v) := by
  rcases Nat.lt_or_ge r g.length with hr | hr
  · intro row hrow
    rw [length_setAt]
    rcases List.mem_or_eq_of_mem_set hrow with h1 | h1
    · exact h row h1
    · subst h1
      rw [List.length_set, getD_row_eq hr]
      exact h _ (List.getElem_mem hr)
  · rw [setAt_oob hr]
    exact h

theorem row_len {g : Grid} (hwf : grid_wf g) {r : Nat} (hr : r < g.length) :
    (g.getD r []).length = g.length := by
  rw [getD_row_eq hr]
  exact hwf _ (List.getElem_mem hr)

theorem cellAt_setAt_self {g : Grid} (hwf : grid_wf g) {r c : Nat}
    (hr : r < g.length) (hc : c < g.length) (v : Cell) :
    cellAt (setAt g r c v) r c = v := by
  have hrow := row_len hwf hr
  unfold cellAt setAt
  rw [List.getD_eq_getElem?_getD (g.set r ((g.getD r []).set c v)) r [],
    List.getElem?_set_self hr]
  simp only [Option.getD_some]
  rw [List.getD_eq_getElem?_getD,
    List.getElem?_set_self (show c < (g.getD r []).length by omega)]
  simp

theorem cellAt_setAt_ne {g : Grid} {r c r' c' : Nat}
    (hne : r ≠ r' ∨ c ≠ c') (v : Cell) :
    cellAt (setAt g r c v) r' c' = cellAt g r' c' := by
  rcases Nat.lt_or_ge r g.length with hr | hr
  · unfold cellAt setAt
    rcases eq_or_ne r r' with rfl | hrr
    · have hcc : c ≠ c' := hne.resolve_left fun hx => hx rfl
      have h1 : (g.set r ((g.getD r []).set c v)).getD r [] = (g.getD r []).set c v := by
        rw [List.getD_eq_getElem?_getD, List.getElem?_set_self hr]
        rfl
      rw [h1, List.getD_eq_getElem?_getD, List.getD_eq_getElem?_getD,
        List.getElem?_set_ne hcc]
      simp [List.getD_eq_getElem?_getD]
    · have h2 : (g.set r ((g.getD r []).set c v)).getD r' [] = g.getD r' [] := by
        rw [List.getD_eq_getElem?_getD, List.getElem?_set_ne hrr,
          List.getD_eq_getElem?_getD]
      rw [h2]
  · unfold setAt
    rw [List.set_eq_of_length_le hr]

theorem cellAt_of_lt {g : Grid} {r c : Nat} (hr : r < g.length)
    (hc : c < (g[r]).length) : cellAt g r c = (g[r])[c] := by
  rw [cellAt_eq, List.getElem?_eq_getElem hr]
  simp only [Option.getD_some]
  rw [List.getElem?_eq_getElem hc]
  rfl

/-- Extensionality for well-formed grids of equal size. -/
theorem grid_ext {g g' : Grid} (hlen : g.length = g'.length)
    (hwf : grid_wf g) (hwf' : grid_wf g')
    (h : ∀ r c, r < g.length → c < g.length → cellAt g r c = cellAt g' r c) :
    g = g' := by
  apply List.ext_get hlen
  intro r hr hr'
  simp only [List.get_eq_getElem]
  have hrowg : (g[r]).length = g.length := hwf _ (List.getElem_mem hr)
  have hrowg' : (g'[r]).length = g'.length := hwf' _ (List.getElem_mem hr')
  apply List.ext_get (by omega)
  intro c hc hc'
  simp only [List.get_eq_getElem]
  have hcg : c < g.length := by omega
  have hcell := h r c hr hcg
  rw [cellAt_of_lt hr (by omega), cellAt_of_lt hr' (by omega)] at hcell
  exact hcell

theorem length_make_empty (size : Nat) : (make_empty_grid size).length = size := by
  simp [make_empty_grid]

theorem grid_wf_make_empty (size : Nat) : grid_wf (make_empty_grid size) := by
  intro row hrow
  simp [make_empty_grid] at hrow ⊢
  simp [hrow]

theorem cellAt_make_empty {size r c : Nat} (hr : r < size) (hc : c < size) :
    cellAt (make_empty_grid size) r c = EMPTY := by
  rw [cellAt_eq, make_empty_grid, List.getElem?_replicate, if_pos hr]
  simp [List.getElem?_replicate, hc]

/-! ## Bounds and integer-coordinate lemmas -/

theorem in_bounds_iff {size : Nat} {r c : Int} :
    in_bounds size r c = true ↔
      0 ≤ r ∧ r < (size : Int) ∧ 0 ≤ c ∧ c < (size : Int) := by
  simp [in_bounds]

theorem length_setCell (g : Grid) (r c : Int) (v : Cell) :
    (setCell g r c v).length = g.length :=
  length_setAt g r.toNat c.toNat v

theorem grid_wf_setCell {g : Grid} (h : grid_wf g) (r c : Int) (v : Cell) :
    grid_wf (setCell g r c v) :=
  grid_wf_setAt h r.toNat c.toNat v

theorem getCell_setCell_self {g : Grid} (hwf : grid_wf g) {r c : Int}
    (hb : in_bounds g.length r c = true) (v : Cell) :
    getCell (setCell g r c v) r c = v := by
  rcases in_bounds_iff.mp hb with ⟨h1, h2, h3, h4⟩
  exact cellAt_setAt_self hwf (by omega) (by omega) v

theorem getCell_setCell_ne {g : Grid} {r c r' c' : Int}
    (h1 : 0 ≤ r) (h2 : 0 ≤ c) (h3 : 0 ≤ r') (h4 : 0 ≤ c')
    (hne : r ≠ r' ∨ c ≠ c') (v : Cell) :
    getCell (setCell g r c v) r' c' = getCell g r' c' := by
  apply cellAt_setAt_ne
  rcases hne with hne | hne
  · left; omega
  · right; omega

/-! ## Characterization of `can_place_word` -/

theorem can_place_go_iff (g : Grid) (r c dr dc : Int) :
    ∀ (w : List Char) (n : Nat),
      can_place_go g r c dr dc n w = true ↔
        ∀ i < w.length,
          in_bounds g.length (r + ((n : Int) + i) * dr)
              (c + ((n : Int) + i) * dc) = true ∧
            (getCell g (r + ((n : Int) + i) * dr) (c + ((n : Int) + i) * dc)
                = EMPTY ∨
              getCell g (r + ((n : Int) + i) * dr) (c + ((n : Int) + i) * dc)
                = [w.getD i 'A'])
  | [], n => by simp [can_place_go]
  | ch :: rest, n => by
    simp only [can_place_go, Bool.and_eq_true, Bool.or_eq_true,
      decide_eq_true_eq]
    rw [can_place_go_iff g r c dr dc rest (n + 1)]
    constructor
    · rintro ⟨⟨hb, hcell⟩, hrest⟩ i hi
      match i with
      | 0 => simpa using ⟨hb, hcell⟩
      | j + 1 =>
        have h := hrest j (by simpa using hi)
        have e : ((n + 1 : Nat) : Int) + (j : Int)
            = (n : Int) + ((j + 1 : Nat) : Int) := by push_cast; ring
        rw [e] at h
        simpa using h
    · intro hall
      refine ⟨?_, ?_⟩
      · have h := hall 0 (by simp)
        simpa using h
      · intro j hj
        have h := hall (j + 1) (by simpa using hj)
        have e : ((n + 1 : Nat) : Int) + (j : Int)
            = (n : Int) + ((j + 1 : Nat) : Int) := by push_cast; ring
        rw [e]
        simpa using h

/-- The specification-level reading of `can_place_word`: every index of the
word lands in bounds and on an empty or matching cell. -/
theorem can_place_word_iff (g : Grid) (w : List Char) (r c dr dc : Int) :
    can_place_word g w r c dr dc = true ↔
      ∀ i < w.length,
        in_bounds g.length (r + (i : Int) * dr) (c + (i : Int) * dc) = true ∧
          (getCell g (r + (i : Int) * dr) (c + (i : Int) * dc) = EMPTY ∨
            getCell g (r + (i : Int) * dr) (c + (i : Int) * dc)
              = [w.getD i 'A']) := by
  rw [can_place_word, can_place_go_iff]
  constructor <;> intro h i hi <;> have hh := h i hi <;> simpa using hh

/-! ## Shape preservation -/

theorem place_go_length (r c dr dc : Int) :
    ∀ (w : List Char) (g : Grid) (n : Nat),
      (place_go r c dr dc g n w).1.length = g.length
  | [], g, n => rfl
  | ch :: rest, g, n => by
    simp only [place_go]
    split
    · rw [place_go_length r c dr dc rest, length_setCell]
    · rw [place_go_length r c dr dc rest]

theorem place_go_wf (r c dr dc : Int) :
    ∀ (w : List Char) (g : Grid) (n : Nat), grid_wf g →
      grid_wf (place_go r c dr dc g n w).1
  | [], g, n, h => h
  | ch :: rest, g, n, h => by
    simp only [place_go]
    split
    · exact place_go_wf r c dr dc rest _ _ (grid_wf_setCell h _ _ _)
    · exact place_go_wf r c dr dc rest _ _ h

theorem undo_changes_length :
    ∀ (l : List (Int × Int)) (g : Grid),
      (undo_changes g l).length = g.length
  | [], g => rfl
  | p :: ps, g => by
    rw [undo_changes, undo_changes_length ps, length_setCell]

theorem undo_changes_wf :
    ∀ (l : List (Int × Int)) (g : Grid), grid_wf g →
      grid_wf (undo_changes g l)
  | [], g, h => h
  | p :: ps, g, h => by
    rw [undo_changes]
    exact undo_changes_wf ps _ (grid_wf_setCell h _ _ _)

theorem fill_go_length :
    ∀ (l : List (Nat × Nat)) (g : Grid) (rng : Rng),
      (fill_go g rng l).1.length = g.length
  | [], g, rng => rfl
  | p :: ps, g, rng => by
    simp only [fill_go]
    split
    · rw [fill_go_length ps, length_setAt]
    · rw [fill_go_length ps]

theorem fill_go_wf :
    ∀ (l : List (Nat × Nat)) (g : Grid) (rng : Rng), grid_wf g →
      grid_wf (fill_go g rng l).1
  | [], g, rng, h => h
  | p :: ps, g, rng, h => by
    simp only [fill_go]
    split
    · exact fill_go_wf ps _ _ (grid_wf_setAt h _ _ _)
    · exact fill_go_wf ps _ _ h

/-! ## Cell-level behaviour of `place_word` and `undo_changes` -/

/-- Behaviour of `getCell` after `setCell`, resolved by the underlying natural
coordinates (the program only sets in-bounds cells). -/
theorem getCell_setCell_classes {g : Grid} (hwf : grid_wf g) {a b : Int}
    (hb : in_bounds g.length a b = true) (v : Cell) (x y : Int) :
    getCell (setCell g a b v) x y =
      if x.toNat = a.toNat ∧ y.toNat = b.toNat then v else getCell g x y := by
  rcases in_bounds_iff.mp hb with ⟨h1, h2, h3, h4⟩
  unfold getCell setCell
  split
  next h =>
    rw [h.1, h.2]
    exact cellAt_setAt_self hwf (by omega) (by omega) v
  next h =>
    apply cellAt_setAt_ne
    rcases not_and_or.mp h with h | h
    · left; omega
    · right; omega

theorem coord_shift (n i : Nat) :
    (n : Int) + ((i + 1 : Nat) : Int) = ((n + 1 : Nat) : Int) + (i : Int) := by
  push_cast
  ring

/-- Every coordinate recorded by `place_word` was in bounds and `EMPTY`
before the placement. -/
theorem place_go_changed (r c dr dc : Int) :
    ∀ (w : List Char) (g : Grid) (n : Nat), grid_wf g →
      (∀ i < w.length,
        in_bounds g.length (r + ((n : Int) + i) * dr)
          (c + ((n : Int) + i) * dc) = true) →
      ∀ p ∈ (place_go r c dr dc g n w).2,
        in_bounds g.length p.1 p.2 = true ∧ getCell g p.1 p.2 = EMPTY
  | [], g, n, hwf, hb => by simp [place_go]
  | ch :: rest, g, n, hwf, hb => by
    have hb0 : in_bounds g.length (r + (n : Int) * dr) (c + (n : Int) * dc)
        = true := by simpa using hb 0 (by simp)
    have hb1 : ∀ i < rest.length,
        in_bounds g.length (r + (((n + 1 : Nat) : Int) + i) * dr)
          (c + (((n + 1 : Nat) : Int) + i) * dc) = true := by
      intro i hi
      rw [← coord_shift]
      simpa using hb (i + 1) (by simpa using Nat.succ_lt_succ hi)
    simp only [place_go]
    split
    next hE =>
      intro p hp
      simp only [List.mem_cons] at hp
      rcases hp with rfl | hp
      · exact ⟨hb0, hE⟩
      · have hwf1 : grid_wf (setCell g (r + (n : Int) * dr)
            (c + (n : Int) * dc) [ch]) := grid_wf_setCell hwf _ _ _
        have hlen1 := length_setCell g (r + (n : Int) * dr)
            (c + (n : Int) * dc) [ch]
        have hrec := place_go_changed r c dr dc rest _ (n + 1) hwf1
            (by intro i hi; rw [hlen1]; exact hb1 i hi) p hp
        rcases hrec with ⟨hbp, hEp⟩
        rw [hlen1] at hbp
        refine ⟨hbp, ?_⟩
        rw [getCell_setCell_classes hwf hb0 [ch] p.1 p.2] at hEp
        by_cases hcls : p.1.toNat = (r + (n : Int) * dr).toNat ∧
            p.2.toNat = (c + (n : Int) * dc).toNat
        · rw [if_pos hcls] at hEp
          exact absurd hEp (single_ne_EMPTY ch)
        · rwa [if_neg hcls] at hEp
    next hE =>
      intro p hp
      exact place_go_changed r c dr dc rest g (n + 1) hwf hb1 p hp

/-- Cells whose natural coordinates differ from every visited cell of the
placement are untouched by `place_word`. -/
theorem place_go_untouched (r c dr dc : Int) :
    ∀ (w : List Char) (g : Grid) (n : Nat), grid_wf g →
      (∀ i < w.length,
        in_bounds g.length (r + ((n : Int) + i) * dr)
          (c + ((n : Int) + i) * dc) = true) →
      ∀ x y : Int,
        (∀ i < w.length,
          ¬(x.toNat = (r + ((n : Int) + i) * dr).toNat ∧
            y.toNat = (c + ((n : Int) + i) * dc).toNat)) →
        getCell (place_go r c dr dc g n w).1 x y = getCell g x y
  | [], g, n, hwf, hb, x, y, hout => rfl
  | ch :: rest, g, n, hwf, hb, x, y, hout => by
    have hb0 : in_bounds g.length (r + (n : Int) * dr) (c + (n : Int) * dc)
        = true := by simpa using hb 0 (by simp)
    have hb1 : ∀ i < rest.length,
        in_bounds g.length (r + (((n + 1 : Nat) : Int) + i) * dr)
          (c + (((n + 1 : Nat) : Int) + i) * dc) = true := by
      intro i hi
      rw [← coord_shift]
      simpa using hb (i + 1) (by simpa using Nat.succ_lt_succ hi)
    have hout0 : ¬(x.toNat = (r + (n : Int) * dr).toNat ∧
        y.toNat = (c + (n : Int) * dc).toNat) := by
      simpa using hout 0 (by simp)
    have hout1 : ∀ i < rest.length,
        ¬(x.toNat = (r + (((n + 1 : Nat) : Int) + i) * dr).toNat ∧
          y.toNat = (c + (((n + 1 : Nat) : Int) + i) * dc).toNat) := by
      intro i hi
      rw [← coord_shift]
      simpa using hout (i + 1) (by simpa using Nat.succ_lt_succ hi)
    simp only [place_go]
    split
    next hE =>
      have hwf1 : grid_wf (setCell g (r + (n : Int) * dr)
          (c + (n : Int) * dc) [ch]) := grid_wf_setCell hwf _ _ _
      have hlen1 := length_setCell g (r + (n : Int) * dr)
          (c + (n : Int) * dc) [ch]
      rw [place_go_untouched r c dr dc rest _ (n + 1) hwf1
        (by intro i hi; rw [hlen1]; exact hb1 i hi) x y hout1]
      rw [getCell_setCell_classes hwf hb0 [ch] x y, if_neg hout0]
    next hE =>
      exact place_go_untouched r c dr dc rest g (n + 1) hwf hb1 x y hout1

/-- Cells whose natural coordinates differ from every recorded change are
untouched by `place_word` (frame property over the change set). -/
theorem place_go_frame (r c dr dc : Int) :
    ∀ (w : List Char) (g : Grid) (n : Nat), grid_wf g →
      (∀ i < w.length,
        in_bounds g.length (r + ((n : Int) + i) * dr)
          (c + ((n : Int) + i) * dc) = true) →
      ∀ x y : Int,
        (∀ p ∈ (place_go r c dr dc g n w).2,
          ¬(x.toNat = p.1.toNat ∧ y.toNat = p.2.toNat)) →
        getCell (place_go r c dr dc g n w).1 x y = getCell g x y
  | [], g, n, hwf, hb, x, y, hout => rfl
  | ch :: rest, g, n, hwf, hb, x, y, hout => by
    have hb0 : in_bounds g.length (r + (n : Int) * dr) (c + (n : Int) * dc)
        = true := by simpa using hb 0 (by simp)
    have hb1 : ∀ i < rest.length,
        in_bounds g.length (r + (((n + 1 : Nat) : Int) + i) * dr)
          (c + (((n + 1 : Nat) : Int) + i) * dc) = true := by
      intro i hi
      rw [← coord_shift]
      simpa using hb (i + 1) (by simpa using Nat.succ_lt_succ hi)
    simp only [place_go] at hout ⊢
    revert hout
    split
    next hE =>
      intro hout
      have hout0 : ¬(x.toNat = (r + (n : Int) * dr).toNat ∧
          y.toNat = (c + (n : Int) * dc).toNat) := by
        exact hout _ (List.mem_cons_self _ _)
      have hwf1 : grid_wf (setCell g (r + (n : Int) * dr)
          (c + (n : Int) * dc) [ch]) := grid_wf_setCell hwf _ _ _
      have hlen1 := length_setCell g (r + (n : Int) * dr)
          (c + (n : Int) * dc) [ch]
      rw [place_go_frame r c dr dc rest _ (n + 1) hwf1
        (by intro i hi; rw [hlen1]; exact hb1 i hi) x y
        (fun p hp => hout p (List.mem_cons_of_mem _ hp))]
      rw [getCell_setCell_classes hwf hb0 [ch] x y, if_neg hout0]
    next hE =>
      intro hout
      exact place_go_frame r c dr dc rest g (n + 1) hwf hb1 x y hout

/-- After a placement whose candidate check succeeded (along a direction
visiting pairwise distinct cells), every index of the word is written in the
grid: cell `i` holds exactly the word's `i`-th letter. -/
theorem place_go_cover (r c dr dc : Int) :
    ∀ (w : List Char) (g : Grid) (n : Nat), grid_wf g →
      (∀ i < w.length,
        in_bounds g.length (r + ((n : Int) + i) * dr)
            (c + ((n : Int) + i) * dc) = true ∧
          (getCell g (r + ((n : Int) + i) * dr) (c + ((n : Int) + i) * dc)
              = EMPTY ∨
            getCell g (r + ((n : Int) + i) * dr) (c + ((n : Int) + i) * dc)
              = [w.getD i 'A'])) →
      (∀ i j : Nat, i < w.length → j < w.length → i ≠ j →
        ¬((r + ((n : Int) + i) * dr).toNat = (r + ((n : Int) + j) * dr).toNat ∧
          (c + ((n : Int) + i) * dc).toNat
            = (c + ((n : Int) + j) * dc).toNat)) →
      ∀ i < w.length,
        getCell (place_go r c dr dc g n w).1 (r + ((n : Int) + i) * dr)
          (c + ((n : Int) + i) * dc) = [w.getD i 'A']
  | [], g, n, hwf, hcp, hinj => by simp
  | ch :: rest, g, n, hwf, hcp, hinj => by
    have hb : ∀ i < (ch :: rest).length,
        in_bounds g.length (r + ((n : Int) + i) * dr)
          (c + ((n : Int) + i) * dc) = true := fun i hi => (hcp i hi).1
    have hb0 : in_bounds g.length (r + (n : Int) * dr) (c + (n : Int) * dc)
        = true := by simpa using hb 0 (by simp)
    have hchar0 : getCell g (r + (n : Int) * dr) (c + (n : Int) * dc) = EMPTY ∨
        getCell g (r + (n : Int) * dr) (c + (n : Int) * dc) = [ch] := by
      simpa using (hcp 0 (by simp)).2
    have hb1 : ∀ i < rest.length,
        in_bounds g.length (r + (((n + 1 : Nat) : Int) + i) * dr)
          (c + (((n + 1 : Nat) : Int) + i) * dc) = true := by
      intro i hi
      rw [← coord_shift]
      simpa using hb (i + 1) (by simpa using Nat.succ_lt_succ hi)
    have hinj1 : ∀ i j : Nat, i < rest.length → j < rest.length → i ≠ j →
        ¬((r + (((n + 1 : Nat) : Int) + i) * dr).toNat
            = (r + (((n + 1 : Nat) : Int) + j) * dr).toNat ∧
          (c + (((n + 1 : Nat) : Int) + i) * dc).toNat
            = (c + (((n + 1 : Nat) : Int) + j) * dc).toNat) := by
      intro i j hi hj hij
      rw [← coord_shift, ← coord_shift]
      exact hinj (i + 1) (j + 1) (by simpa using Nat.succ_lt_succ hi)
        (by simpa using Nat.succ_lt_succ hj) (by omega)
    have hout_head : ∀ i < rest.length,
        ¬((r + (n : Int) * dr).toNat
            = (r + (((n + 1 : Nat) : Int) + i) * dr).toNat ∧
          (c + (n : Int) * dc).toNat
            = (c + (((n + 1 : Nat) : Int) + i) * dc).toNat) := by
      intro i hi
      rw [← coord_shift]
      have := hinj 0 (i + 1) (by simp) (by simpa using Nat.succ_lt_succ hi)
        (by omega)
      simpa using this
    intro i hi
    simp only [place_go]
    split
    next hE =>
      have hwf1 : grid_wf (setCell g (r + (n : Int) * dr)
          (c + (n : Int) * dc) [ch]) := grid_wf_setCell hwf _ _ _
      have hlen1 := length_setCell g (r + (n : Int) * dr)
          (c + (n : Int) * dc) [ch]
      have hcp1 : ∀ j < rest.length,
          in_bounds (setCell g (r + (n : Int) * dr) (c + (n : Int) * dc)
              [ch]).length (r + (((n + 1 : Nat) : Int) + j) * dr)
              (c + (((n + 1 : Nat) : Int) + j) * dc) = true ∧
            (getCell (setCell g (r + (n : Int) * dr) (c + (n : Int) * dc) [ch])
                (r + (((n + 1 : Nat) : Int) + j) * dr)
                (c + (((n + 1 : Nat) : Int) + j) * dc) = EMPTY ∨
              getCell (setCell g (r + (n : Int) * dr) (c + (n : Int) * dc)
                  [ch]) (r + (((n + 1 : Nat) : Int) + j) * dr)
                (c + (((n + 1 : Nat) : Int) + j) * dc) = [rest.getD j 'A']) := by
        intro j hj
        have hsame : getCell (setCell g (r + (n : Int) * dr)
            (c + (n : Int) * dc) [ch]) (r + (((n + 1 : Nat) : Int) + j) * dr)
            (c + (((n + 1 : Nat) : Int) + j) * dc)
            = getCell g (r + (((n + 1 : Nat) : Int) + j) * dr)
              (c + (((n + 1 : Nat) : Int) + j) * dc) := by
          rw [getCell_setCell_classes hwf hb0 [ch]]
          rw [if_neg]
          intro hand
          exact hout_head j hj ⟨hand.1.symm, hand.2.symm⟩
        refine ⟨by rw [hlen1]; exact hb1 j hj, ?_⟩
        rw [hsame, ← coord_shift]
        have := (hcp (j + 1) (by simpa using Nat.succ_lt_succ hj)).2
        simpa using this
      match i with
      | 0 =>
        have huntouched := place_go_untouched r c dr dc rest _ (n + 1) hwf1
          (by intro j hj; rw [hlen1]; exact hb1 j hj)
          (r + (n : Int) * dr) (c + (n : Int) * dc) hout_head
        simp only [Nat.cast_zero, add_zero, List.getD_cons_zero] at huntouched ⊢
        rw [huntouched]
        rw [getCell_setCell_classes hwf hb0 [ch], if_pos ⟨rfl, rfl⟩]
      | j + 1 =>
        have hrec := place_go_cover r c dr dc rest _ (n + 1) hwf1 hcp1 hinj1 j
          (by simpa using hi)
        rw [← coord_shift] at hrec
        simpa using hrec
    next hE =>
      have hchar : getCell g (r + (n : Int) * dr) (c + (n : Int) * dc)
          = [ch] := hchar0.resolve_left hE
      match i with
      | 0 =>
        have huntouched := place_go_untouched r c dr dc rest g (n + 1) hwf hb1
          (r + (n : Int) * dr) (c + (n : Int) * dc) hout_head
        simp only [Nat.cast_zero, add_zero, List.getD_cons_zero]
        rw [huntouched, hchar]
      | j + 1 =>
        have hcp1 : ∀ k < rest.length,
            in_bounds g.length (r + (((n + 1 : Nat) : Int) + k) * dr)
                (c + (((n + 1 : Nat) : Int) + k) * dc) = true ∧
              (getCell g (r + (((n + 1 : Nat) : Int) + k) * dr)
                  (c + (((n + 1 : Nat) : Int) + k) * dc) = EMPTY ∨
                getCell g (r + (((n + 1 : Nat) : Int) + k) * dr)
                  (c + (((n + 1 : Nat) : Int) + k) * dc)
                  = [rest.getD k 'A']) := by
          intro k hk
          refine ⟨hb1 k hk, ?_⟩
          rw [← coord_shift]
          have := (hcp (k + 1) (by simpa using Nat.succ_lt_succ hk)).2
          simpa using this
        have hrec := place_go_cover r c dr dc rest g (n + 1) hwf hcp1 hinj1 j
          (by simpa using hi)
        rw [← coord_shift] at hrec
        simpa using hrec

/-- Cell-level description of `undo_changes`: cells whose natural coordinates
occur in the change set become `EMPTY`, all others are untouched. -/
theorem undo_changes_getCell :
    ∀ (l : List (Int × Int)) (g : Grid), grid_wf g →
      (∀ p ∈ l, in_bounds g.length p.1 p.2 = true) →
      ∀ x y : Int,
        getCell (undo_changes g l) x y =
          if ∃ p ∈ l, x.toNat = p.1.toNat ∧ y.toNat = p.2.toNat then EMPTY
          else getCell g x y
  | [], g, hwf, hb, x, y => by simp [undo_changes]
  | p :: ps, g, hwf, hb, x, y => by
    have hbp : in_bounds g.length p.1 p.2 = true := hb p (List.mem_cons_self _ _)
    have hwf1 : grid_wf (setCell g p.1 p.2 EMPTY) := grid_wf_setCell hwf _ _ _
    have hlen1 := length_setCell g p.1 p.2 EMPTY
    rw [undo_changes]
    rw [undo_changes_getCell ps _ hwf1
      (by intro q hq; rw [hlen1]; exact hb q (List.mem_cons_of_mem _ hq)) x y]
    rw [getCell_setCell_classes hwf hbp EMPTY x y]
    by_cases hps : ∃ q ∈ ps, x.toNat = q.1.toNat ∧ y.toNat = q.2.toNat
    · rw [if_pos hps, if_pos]
      rcases hps with ⟨q, hq, hxy⟩
      exact ⟨q, List.mem_cons_of_mem _ hq, hxy⟩
    · rw [if_neg hps]
      by_cases hp : x.toNat = p.1.toNat ∧ y.toNat = p.2.toNat
      · rw [if_pos hp, if_pos ⟨p, List.mem_cons_self _ _, hp⟩]
      · rw [if_neg hp, if_neg]
        intro hcon
        rcases hcon with ⟨q, hq, hxy⟩
        rcases List.mem_cons.mp hq with rfl | hq
        · exact hp hxy
        · exact hps ⟨q, hq, hxy⟩

/-- The place/undo round trip: undoing the change set returned by a
permitted placement restores the exact previous grid. -/
theorem place_undo_roundtrip {g : Grid} (hwf : grid_wf g) (w : List Char)
    {r c dr dc : Int} (hcp : can_place_word g w r c dr dc = true) :
    undo_changes (place_word g w r c dr dc).1 (place_word g w r c dr dc).2
      = g := by
  have hchar := (can_place_word_iff g w r c dr dc).mp hcp
  have hb : ∀ i < w.length,
      in_bounds g.length (r + ((0 : Nat) + i : Int) * dr)
        (c + ((0 : Nat) + i : Int) * dc) = true := by
    intro i hi
    simpa using (hchar i hi).1
  have hplen : (place_word g w r c dr dc).1.length = g.length :=
    place_go_length r c dr dc w g 0
  have hpwf : grid_wf (place_word g w r c dr dc).1 :=
    place_go_wf r c dr dc w g 0 hwf
  have hch := place_go_changed r c dr dc w g 0 hwf (by simpa using hb)
  have hulen : (undo_changes (place_word g w r c dr dc).1
      (place_word g w r c dr dc).2).length = g.length := by
    rw [undo_changes_length, hplen]
  have huwf : grid_wf (undo_changes (place_word g w r c dr dc).1
      (place_word g w r c dr dc).2) :=
    undo_changes_wf _ _ hpwf
  apply grid_ext hulen huwf hwf
  intro rn cn hrn hcn
  rw [hulen] at hrn hcn
  have hgoal : getCell (undo_changes (place_word g w r c dr dc).1
      (place_word g w r c dr dc).2) (rn : Int) (cn : Int)
      = getCell g (rn : Int) (cn : Int) := by
    rw [undo_changes_getCell _ _ hpwf
      (by
        intro p hp
        rw [hplen]
        exact (hch p hp).1)]
    by_cases hmem : ∃ p ∈ (place_word g w r c dr dc).2,
        ((rn : Int)).toNat = p.1.toNat ∧ ((cn : Int)).toNat = p.2.toNat
    · rw [if_pos hmem]
      rcases hmem with ⟨p, hp, hxy⟩
      have hEp := (hch p hp).2
      unfold getCell
      rw [hxy.1, hxy.2]
      exact hEp.symm ▸ rfl
    · rw [if_neg hmem]
      apply place_go_frame r c dr dc w g 0 hwf (by simpa using hb)
      intro p hp hxy
      exact hmem ⟨p, hp, hxy⟩
  exact hgoal

/-! ## Candidate enumeration, shuffling, sorting -/

/-- Membership description of `all_possible_placements`: exactly the triples
over in-range cells and listed non-zero directions passing `can_place_word`. -/
theorem mem_all_possible {g : Grid} {word : List Char} {dirs : List Direction}
    {r c : Int} {d : Direction} :
    (r, c, d) ∈ all_possible_placements g word dirs ↔
      0 ≤ r ∧ r < (g.length : Int) ∧ 0 ≤ c ∧ c < (g.length : Int) ∧
        d ∈ dirs ∧ ¬(d.1 = 0 ∧ d.2 = 0) ∧
        can_place_word g word r c d.1 d.2 = true := by
  unfold all_possible_placements
  simp only [List.mem_flatMap, List.mem_filterMap, List.mem_range]
  constructor
  · rintro ⟨rn, hrn, cn, hcn, d', hd', hf⟩
    split_ifs at hf with h0 hcp
    all_goals try simp at hf
    obtain ⟨hr, hc, hd⟩ := hf
    subst hr; subst hc; subst hd
    refine ⟨by positivity, by exact_mod_cast hrn, by positivity,
      by exact_mod_cast hcn, hd', h0, hcp⟩
  · rintro ⟨h1, h2, h3, h4, hd, h0, hcp⟩
    refine ⟨r.toNat, by omega, c.toNat, by omega, d, hd, ?_⟩
    rw [if_neg h0, if_pos (by rwa [Int.toNat_of_nonneg h1, Int.toNat_of_nonneg h3])]
    rw [Int.toNat_of_nonneg h1, Int.toNat_of_nonneg h3]

theorem mem_swap_at {α : Type} {l : List α} {i j : Nat} :
    ∀ x ∈ swap_at l i j, x ∈ l := by
  unfold swap_at
  split
  next a b ha hb =>
    intro x hx
    rcases List.mem_or_eq_of_mem_set hx with hx | rfl
    · rcases List.mem_or_eq_of_mem_set hx with hx | rfl
      · exact hx
      · exact List.getElem?_mem hb
    · exact List.getElem?_mem ha
  next =>
    intro x hx
    exact hx

theorem mem_shuffle_from {α : Type} :
    ∀ (k : Nat) (l : List α) (rng : Rng),
      ∀ x ∈ (shuffle_from l rng k).1, x ∈ l
  | 0, l, rng, x, hx => hx
  | k + 1, l, rng, x, hx => by
    rw [shuffle_from] at hx
    exact mem_swap_at x (mem_shuffle_from k _ _ x hx)

theorem mem_shuffle {α : Type} {l : List α} {rng : Rng} :
    ∀ x ∈ (shuffle l rng).1, x ∈ l :=
  mem_shuffle_from (l.length - 1) l rng

theorem mem_insert_len_desc {w x : List Char} :
    ∀ {l : List (List Char)}, x ∈ insert_len_desc w l ↔ x = w ∨ x ∈ l
  | [] => by simp [insert_len_desc]
  | v :: vs => by
    simp only [insert_len_desc]
    split
    · simp only [List.mem_cons, mem_insert_len_desc (l := vs)]
      try tauto
    · simp only [List.mem_cons]
      try tauto

theorem mem_sort_len_go :
    ∀ (ws : List (List Char)) (acc : List (List Char)) (x : List Char),
      (x ∈ ws.foldl (fun acc w => insert_len_desc w acc) acc ↔
        x ∈ acc ∨ x ∈ ws)
  | [], acc, x => by simp
  | w :: ws, acc, x => by
    simp only [List.foldl_cons]
    rw [mem_sort_len_go ws]
    rw [mem_insert_len_desc]
    simp only [List.mem_cons]
    tauto

theorem mem_sort_len_desc {ws : List (List Char)} {v : List Char} :
    v ∈ sort_len_desc ws ↔ v ∈ ws := by
  unfold sort_len_desc
  rw [mem_sort_len_go]
  simp

/-! ## Grid extension order and the appearance predicate -/

theorem grows_refl (g : Grid) : grows g g :=
  ⟨rfl, fun _ _ _ => rfl⟩

theorem grows_trans {g1 g2 g3 : Grid} (h12 : grows g1 g2) (h23 : grows g2 g3) :
    grows g1 g3 := by
  refine ⟨h23.1.trans h12.1, ?_⟩
  intro x y hne
  have h2 := h12.2 x y hne
  have h3 := h23.2 x y (by rw [h2]; exact hne)
  rw [h3, h2]

/-- Appearance is preserved when the grid grows (word letters are single
characters, never the two-character `EMPTY` marker, so they survive). -/
theorem appears_mono {g g' : Grid} {w : List Char} {dirs : List Direction}
    (hg : grows g g') (ha : appears g w dirs) : appears g' w dirs := by
  rcases ha with ⟨r, c, d, hd, hall⟩
  refine ⟨r, c, d, hd, ?_⟩
  intro i hi
  rcases hall i hi with ⟨hb, hcell⟩
  refine ⟨by rwa [hg.1], ?_⟩
  rw [hg.2 _ _ (by rw [hcell]; exact single_ne_EMPTY _), hcell]

/-! ## `place_word`-level consequences -/

theorem can_place_hb {g : Grid} {w : List Char} {r c dr dc : Int}
    (hcp : can_place_word g w r c dr dc = true) :
    ∀ i < w.length,
      in_bounds g.length (r + (((0 : Nat) : Int) + i) * dr)
        (c + (((0 : Nat) : Int) + i) * dc) = true := by
  intro i hi
  simpa using ((can_place_word_iff g w r c dr dc).mp hcp i hi).1

/-- A permitted placement only grows the grid: non-`EMPTY` cells survive. -/
theorem place_grows {g : Grid} (hwf : grid_wf g) {w : List Char}
    {r c dr dc : Int} (hcp : can_place_word g w r c dr dc = true) :
    grows g (place_word g w r c dr dc).1 := by
  refine ⟨place_go_length r c dr dc w g 0, ?_⟩
  intro x y hne
  apply place_go_frame r c dr dc w g 0 hwf (can_place_hb hcp)
  intro p hp hxy
  have h2 := (place_go_changed r c dr dc w g 0 hwf (can_place_hb hcp) p hp).2
  apply hne
  unfold getCell
  rw [hxy.1, hxy.2]
  exact h2

/-- After a permitted placement along a non-zero direction, the word is
written letter by letter at its cells. -/
theorem place_appears {g : Grid} (hwf : grid_wf g) {w : List Char}
    {r c dr dc : Int} (hcp : can_place_word g w r c dr dc = true)
    (hd : ¬(dr = 0 ∧ dc = 0)) :
    ∀ i < w.length,
      in_bounds (place_word g w r c dr dc).1.length
          (r + (i : Int) * dr) (c + (i : Int) * dc) = true ∧
        getCell (place_word g w r c dr dc).1 (r + (i : Int) * dr)
          (c + (i : Int) * dc) = [w.getD i 'A'] := by
  have hiff := (can_place_word_iff g w r c dr dc).mp hcp
  have hinj : ∀ i j : Nat, i < w.length → j < w.length → i ≠ j →
      ¬((r + (((0 : Nat) : Int) + i) * dr).toNat
          = (r + (((0 : Nat) : Int) + j) * dr).toNat ∧
        (c + (((0 : Nat) : Int) + i) * dc).toNat
          = (c + (((0 : Nat) : Int) + j) * dc).toNat) := by
    intro i j hi hj hij hand
    simp only [Nat.cast_zero, zero_add] at hand
    rcases in_bounds_iff.mp (hiff i hi).1 with ⟨hi1, hi2, hi3, hi4⟩
    rcases in_bounds_iff.mp (hiff j hj).1 with ⟨hj1, hj2, hj3, hj4⟩
    have e1 : r + (i : Int) * dr = r + (j : Int) * dr := by
      rw [← Int.toNat_of_nonneg hi1, ← Int.toNat_of_nonneg hj1, hand.1]
    have e2 : c + (i : Int) * dc = c + (j : Int) * dc := by
      rw [← Int.toNat_of_nonneg hi3, ← Int.toNat_of_nonneg hj3, hand.2]
    have e1' : (i : Int) * dr = (j : Int) * dr := by omega
    have e2' : (i : Int) * dc = (j : Int) * dc := by omega
    rcases not_and_or.mp hd with h | h
    · exact hij (by exact_mod_cast mul_right_cancel₀ h e1')
    · exact hij (by exact_mod_cast mul_right_cancel₀ h e2')
  have hcov := place_go_cover r c dr dc w g 0 hwf
    (by intro i hi; simpa using hiff i hi) hinj
  intro i hi
  unfold place_word
  refine ⟨?_, by simpa using hcov i hi⟩
  rw [place_go_length r c dr dc w g 0]
  exact (hiff i hi).1

/-- Any cell changed by a permitted placement holds a letter of the word. -/
theorem place_go_origin (r c dr dc : Int) :
    ∀ (w : List Char) (g : Grid) (n : Nat), grid_wf g →
      (∀ i < w.length,
        in_bounds g.length (r + ((n : Int) + i) * dr)
          (c + ((n : Int) + i) * dc) = true) →
      ∀ x y : Int,
        getCell (place_go r c dr dc g n w).1 x y ≠ getCell g x y →
        ∃ ch ∈ w, getCell (place_go r c dr dc g n w).1 x y = [ch]
  | [], g, n, hwf, hb, x, y, hdiff => absurd rfl hdiff
  | ch :: rest, g, n, hwf, hb, x, y, hdiff => by
    have hb0 : in_bounds g.length (r + (n : Int) * dr) (c + (n : Int) * dc)
        = true := by simpa using hb 0 (by simp)
    have hb1 : ∀ i < rest.length,
        in_bounds g.length (r + (((n + 1 : Nat) : Int) + i) * dr)
          (c + (((n + 1 : Nat) : Int) + i) * dc) = true := by
      intro i hi
      rw [← coord_shift]
      simpa using hb (i + 1) (by simpa using Nat.succ_lt_succ hi)
    simp only [place_go] at hdiff ⊢
    revert hdiff
    split
    next hE =>
      intro hdiff
      have hwf1 : grid_wf (setCell g (r + (n : Int) * dr)
          (c + (n : Int) * dc) [ch]) := grid_wf_setCell hwf _ _ _
      have hlen1 := length_setCell g (r + (n : Int) * dr)
          (c + (n : Int) * dc) [ch]
      by_cases h1 : getCell (place_go r c dr dc
          (setCell g (r + (n : Int) * dr) (c + (n : Int) * dc) [ch])
          (n + 1) rest).1 x y
          = getCell (setCell g (r + (n : Int) * dr) (c + (n : Int) * dc) [ch])
            x y
      · have h2 : getCell (setCell g (r + (n : Int) * dr)
            (c + (n : Int) * dc) [ch]) x y ≠ getCell g x y := by
          intro he
          exact hdiff (h1.trans he)
        rw [getCell_setCell_classes hwf hb0 [ch] x y] at h1 h2
        by_cases hcls : x.toNat = (r + (n : Int) * dr).toNat ∧
            y.toNat = (c + (n : Int) * dc).toNat
        · rw [if_pos hcls] at h1
          exact ⟨ch, List.mem_cons_self _ _, h1⟩
        · rw [if_neg hcls] at h2
          exact absurd rfl h2
      · have hrec := place_go_origin r c dr dc rest _ (n + 1) hwf1
          (by intro i hi; rw [hlen1]; exact hb1 i hi) x y h1
        rcases hrec with ⟨ch', hch', hv⟩
        exact ⟨ch', List.mem_cons_of_mem _ hch', hv⟩
    next hE =>
      intro hdiff
      have hrec := place_go_origin r c dr dc rest g (n + 1) hwf hb1 x y hdiff
      rcases hrec with ⟨ch', hch', hv⟩
      exact ⟨ch', List.mem_cons_of_mem _ hch', hv⟩

/-! ## The backtracking search -/

/-- If the recursion restores its input grid on failure, then a failed pass
over a candidate list (whose members all pass `can_place_word` on `g`)
leaves `g` exactly as it was. -/
theorem try_placements_fail {recur : Grid → Rng → Bool × Grid × Rng}
    {word : List Char}
    (hrec : ∀ g' rng', grid_wf g' → (recur g' rng').1 = false →
      (recur g' rng').2.1 = g') :
    ∀ (ps : List Placement) (g : Grid) (rng : Rng), grid_wf g →
      (∀ p ∈ ps, can_place_word g word p.1 p.2.1 p.2.2.1 p.2.2.2 = true) →
      (try_placements recur word ps g rng).1 = false →
      (try_placements recur word ps g rng).2.1 = g
  | [], g, rng, hwf, hps, hfail => rfl
  | (r, c, d) :: ps, g, rng, hwf, hps, hfail => by
    have hcp : can_place_word g word r c d.1 d.2 = true :=
      hps (r, c, d) (List.mem_cons_self _ _)
    have hpwf : grid_wf (place_word g word r c d.1 d.2).1 :=
      place_go_wf r c d.1 d.2 word g 0 hwf
    simp only [try_placements] at hfail ⊢
    revert hfail
    split
    next hres =>
      intro hfail
      rw [hfail] at hres
      exact absurd hres (by simp)
    next hres =>
      intro hfail
      have hres' : (recur (place_word g word r c d.1 d.2).1 rng).1 = false := by
        revert hres
        cases (recur (place_word g word r c d.1 d.2).1 rng).1 <;> simp
      have hrestore := hrec (place_word g word r c d.1 d.2).1 rng hpwf hres'
      rw [hrestore, place_undo_roundtrip hwf word hcp] at hfail ⊢
      exact try_placements_fail hrec ps g _ hwf
        (fun p hp => hps p (List.mem_cons_of_mem _ hp)) hfail

/-- Failure of the backtracking search restores the entry grid exactly. -/
theorem backtrack_go_fail :
    ∀ (rest : List (List Char)) (dirs : List Direction) (g : Grid) (rng : Rng),
      grid_wf g →
      (backtrack_go dirs rest g rng).1 = false →
      (backtrack_go dirs rest g rng).2.1 = g
  | [], dirs, g, rng, hwf, hfail => by simp [backtrack_go] at hfail
  | word :: rest, dirs, g, rng, hwf, hfail => by
    simp only [backtrack_go] at hfail ⊢
    apply try_placements_fail
      (fun g' rng' hwf' => backtrack_go_fail rest dirs g' rng' hwf') _ g _ hwf
    · intro p hp
      have hmem := mem_shuffle p hp
      obtain ⟨pr, pc, pd⟩ := p
      rcases mem_all_possible.mp hmem with ⟨h1, h2, h3, h4, hd, h0, hcp⟩
      exact hcp
    · exact hfail

/-- A successful pass over the candidate list is a successful recursion from
some candidate's placement; the entry grid of that recursion is the placed
grid (earlier failed candidates having been undone). -/
theorem try_placements_post {recur : Grid → Rng → Bool × Grid × Rng}
    {word : List Char} {dirs : List Direction} {P : Grid → Grid → Prop}
    (hrec_fail : ∀ g' rng', grid_wf g' → (recur g' rng').1 = false →
      (recur g' rng').2.1 = g')
    (hrec_succ : ∀ g' rng', grid_wf g' → (recur g' rng').1 = true →
      P g' (recur g' rng').2.1) :
    ∀ (ps : List Placement) (g : Grid) (rng : Rng), grid_wf g →
      (∀ p ∈ ps, p ∈ all_possible_placements g word dirs) →
      (try_placements recur word ps g rng).1 = true →
      ∃ (r c : Int) (d : Direction),
        (r, c, d) ∈ all_possible_placements g word dirs ∧
          P (place_word g word r c d.1 d.2).1
            (try_placements recur word ps g rng).2.1
  | [], g, rng, hwf, hps, hsucc => by simp [try_placements] at hsucc
  | (r, c, d) :: ps, g, rng, hwf, hps, hsucc => by
    have hmem : (r, c, d) ∈ all_possible_placements g word dirs :=
      hps _ (List.mem_cons_self _ _)
    have hcp : can_place_word g word r c d.1 d.2 = true :=
      (mem_all_possible.mp hmem).2.2.2.2.2.2
    have hpwf : grid_wf (place_word g word r c d.1 d.2).1 :=
      place_go_wf r c d.1 d.2 word g 0 hwf
    simp only [try_placements] at hsucc ⊢
    revert hsucc
    split
    next hres =>
      intro _
      exact ⟨r, c, d, hmem, hrec_succ _ rng hpwf hres⟩
    next hres =>
      intro hsucc
      have hres' : (recur (place_word g word r c d.1 d.2).1 rng).1 = false := by
        revert hres
        cases (recur (place_word g word r c d.1 d.2).1 rng).1 <;> simp
      have hrestore := hrec_fail (place_word g word r c d.1 d.2).1 rng hpwf hres'
      rw [hrestore, place_undo_roundtrip hwf word hcp] at hsucc ⊢
      exact try_placements_post hrec_fail hrec_succ ps g _ hwf
        (fun p hp => hps p (List.mem_cons_of_mem _ hp)) hsucc

/-- Postcondition of a successful backtracking search: the result is a
well-formed extension of the entry grid in which every remaining word
appears along a listed direction, and any changed cell holds a letter of
one of the remaining words. -/
theorem backtrack_go_post :
    ∀ (rest : List (List Char)) (dirs : List Direction) (g : Grid) (rng : Rng),
      grid_wf g → (backtrack_go dirs rest g rng).1 = true →
      grid_wf (backtrack_go dirs rest g rng).2.1 ∧
        grows g (backtrack_go dirs rest g rng).2.1 ∧
        (∀ w ∈ rest, appears (backtrack_go dirs rest g rng).2.1 w dirs) ∧
        (∀ x y : Int,
          getCell (backtrack_go dirs rest g rng).2.1 x y ≠ getCell g x y →
          ∃ w ∈ rest, ∃ ch ∈ w,
            getCell (backtrack_go dirs rest g rng).2.1 x y = [ch])
  | [], dirs, g, rng, hwf, hsucc => by
    simp only [backtrack_go]
    exact ⟨hwf, grows_refl g, by simp, fun x y hdiff => absurd rfl hdiff⟩
  | word :: rest, dirs, g, rng, hwf, hsucc => by
    simp only [backtrack_go] at hsucc ⊢
    have post := try_placements_post
      (P := fun gin gout =>
        grid_wf gout ∧ grows gin gout ∧
          (∀ w ∈ rest, appears gout w dirs) ∧
          (∀ x y : Int, getCell gout x y ≠ getCell gin x y →
            ∃ w ∈ rest, ∃ ch ∈ w, getCell gout x y = [ch]))
      (fun g' rng' hwf' => backtrack_go_fail rest dirs g' rng' hwf')
      (fun g' rng' hwf' hs =>
        (backtrack_go_post rest dirs g' rng' hwf' hs))
      (shuffle (all_possible_placements g word dirs) rng).1 g
      (shuffle (all_possible_placements g word dirs) rng).2 hwf
      (fun p hp => mem_shuffle p hp) hsucc
    rcases post with ⟨r, c, d, hmem, hwfo, hgrow, happ, horig⟩
    rcases mem_all_possible.mp hmem with ⟨h1, h2, h3, h4, hd, h0, hcp⟩
    have hplace_grows := place_grows hwf hcp
    have happ_word : appears (place_word g word r c d.1 d.2).1 word dirs :=
      ⟨r, c, d, hd, fun i hi => place_appears hwf hcp h0 i hi⟩
    refine ⟨hwfo, grows_trans hplace_grows hgrow, ?_, ?_⟩
    · intro w hw
      rcases List.mem_cons.mp hw with rfl | hw
      · exact appears_mono hgrow happ_word
      · exact happ w hw
    · intro x y hdiff
      by_cases heq : getCell (try_placements (backtrack_go dirs rest) word
          (shuffle (all_possible_placements g word dirs) rng).1 g
          (shuffle (all_possible_placements g word dirs) rng).2).2.1 x y
          = getCell (place_word g word r c d.1 d.2).1 x y
      · have hpd : getCell (place_word g word r c d.1 d.2).1 x y
            ≠ getCell g x y := fun he => hdiff (heq.trans he)
        have horg := place_go_origin r c d.1 d.2 word g 0 hwf
          (can_place_hb hcp) x y hpd
        rcases horg with ⟨ch, hchw, hv⟩
        exact ⟨word, List.mem_cons_self _ _, ch, hchw, heq.trans hv⟩
      · rcases horig x y heq with ⟨w, hw, ch, hch, hv⟩
        exact ⟨w, List.mem_cons_of_mem _ hw, ch, hch, hv⟩

/-! ## Words longer than the grid -/

/-- A word longer than the grid allows no placement in any direction. -/
theorem all_possible_nil_of_long {g : Grid} {word : List Char}
    {dirs : List Direction} (hlong : g.length < word.length) :
    all_possible_placements g word dirs = [] := by
  rw [List.eq_nil_iff_forall_not_mem]
  intro p hp
  obtain ⟨r, c, d⟩ := p
  rcases mem_all_possible.mp hp with ⟨h1, h2, h3, h4, hd, h0, hcp⟩
  have hiff := (can_place_word_iff g word r c d.1 d.2).mp hcp
  have hlast := (hiff (word.length - 1) (by omega)).1
  rcases in_bounds_iff.mp hlast with ⟨hl1, hl2, hl3, hl4⟩
  have hkN : (g.length : Int) ≤ ((word.length - 1 : Nat) : Int) := by
    have h := Nat.le_sub_one_of_lt hlong
    exact_mod_cast h
  have hk0 : (0 : Int) ≤ ((word.length - 1 : Nat) : Int) := by positivity
  rcases not_and_or.mp h0 with hdir | hdir
  · rcases lt_or_gt_of_ne hdir with hneg | hpos
    · have hm : ((word.length - 1 : Nat) : Int) * d.1
          ≤ ((word.length - 1 : Nat) : Int) * (-1) :=
        mul_le_mul_of_nonneg_left (by omega) hk0
      linarith
    · have hm : ((word.length - 1 : Nat) : Int) * 1
          ≤ ((word.length - 1 : Nat) : Int) * d.1 :=
        mul_le_mul_of_nonneg_left (by omega) hk0
      linarith
  · rcases lt_or_gt_of_ne hdir with hneg | hpos
    · have hm : ((word.length - 1 : Nat) : Int) * d.2
          ≤ ((word.length - 1 : Nat) : Int) * (-1) :=
        mul_le_mul_of_nonneg_left (by omega) hk0
      linarith
    · have hm : ((word.length - 1 : Nat) : Int) * 1
          ≤ ((word.length - 1 : Nat) : Int) * d.2 :=
        mul_le_mul_of_nonneg_left (by omega) hk0
      linarith

theorem place_word_length (g : Grid) (word : List Char) (r c dr dc : Int) :
    (place_word g word r c dr dc).1.length = g.length :=
  place_go_length r c dr dc word g 0

theorem try_placements_length {recur : Grid → Rng → Bool × Grid × Rng}
    {word : List Char}
    (hreclen : ∀ g' rng', (recur g' rng').2.1.length = g'.length) :
    ∀ (ps : List Placement) (g : Grid) (rng : Rng),
      (try_placements recur word ps g rng).2.1.length = g.length
  | [], g, rng => rfl
  | (r, c, d) :: ps, g, rng => by
    simp only [try_placements]
    split
    next hres =>
      rw [hreclen, place_word_length]
    next hres =>
      rw [try_placements_length hreclen ps, undo_changes_length, hreclen,
        place_word_length]

theorem backtrack_go_length :
    ∀ (rest : List (List Char)) (dirs : List Direction) (g : Grid) (rng : Rng),
      (backtrack_go dirs rest g rng).2.1.length = g.length
  | [], dirs, g, rng => rfl
  | word :: rest, dirs, g, rng => by
    simp only [backtrack_go]
    exact try_placements_length
      (fun g' rng' => backtrack_go_length rest dirs g' rng') _ g _

theorem try_placements_fail_all {recur : Grid → Rng → Bool × Grid × Rng}
    {word : List Char} {N : Nat}
    (hrec : ∀ g' rng', g'.length = N → (recur g' rng').1 = false)
    (hreclen : ∀ g' rng', (recur g' rng').2.1.length = g'.length) :
    ∀ (ps : List Placement) (g : Grid) (rng : Rng), g.length = N →
      (try_placements recur word ps g rng).1 = false
  | [], g, rng, hg => rfl
  | (r, c, d) :: ps, g, rng, hg => by
    simp only [try_placements]
    have hplen : (place_word g word r c d.1 d.2).1.length = N := by
      rw [place_word_length]
      exact hg
    rw [if_neg (by simp [hrec _ rng hplen])]
    exact try_placements_fail_all hrec hreclen ps _ _
      (by rw [undo_changes_length, hreclen, hplen])

theorem shuffle_nil {α : Type} (rng : Rng) : shuffle ([] : List α) rng = ([], rng) := rfl

/-- The backtracking search fails whenever some remaining word is longer
than the grid. -/
theorem backtrack_go_long_fail :
    ∀ (rest : List (List Char)) (dirs : List Direction) (g : Grid) (rng : Rng),
      (∃ w ∈ rest, g.length < w.length) →
      (backtrack_go dirs rest g rng).1 = false
  | [], dirs, g, rng, hex => by simp at hex
  | word :: rest, dirs, g, rng, hex => by
    simp only [backtrack_go]
    rcases hex with ⟨w, hw, hlong⟩
    rcases List.mem_cons.mp hw with rfl | hw
    · rw [all_possible_nil_of_long hlong, shuffle_nil]
      rfl
    · exact try_placements_fail_all
        (fun g' rng' hg' => backtrack_go_long_fail rest dirs g' rng'
          ⟨w, hw, by rw [hg']; exact hlong⟩)
        (fun g' rng' => backtrack_go_length rest dirs g' rng') _ g _ rfl

/-! ## The random fill -/

theorem choice_mem {l : List Char} (h : l ≠ []) (rng : Rng) :
    (choice l rng).1 ∈ l := by
  unfold choice randbelow
  have hlen : 0 < l.length := List.length_pos.mpr h
  have hj : rng.stream rng.pos % l.length < l.length := Nat.mod_lt _ hlen
  simp only []
  rw [List.getD_eq_getElem l 'A' hj]
  exact List.getElem_mem hj

/-- Non-`EMPTY` cells are untouched by the fill loop. -/
theorem fill_go_frame :
    ∀ (todo : List (Nat × Nat)) (g : Grid) (rng : Rng) (r c : Nat),
      cellAt g r c ≠ EMPTY →
      cellAt (fill_go g rng todo).1 r c = cellAt g r c
  | [], g, rng, r, c, hne => rfl
  | (a, b) :: rest, g, rng, r, c, hne => by
    simp only [fill_go]
    split
    next hE =>
      have hab : a ≠ r ∨ b ≠ c := by
        by_contra hcon
        push_neg at hcon
        rw [hcon.1, hcon.2] at hE
        exact hne hE
      have hstep := cellAt_setAt_ne (g := g) hab
        [(choice ascii_uppercase rng).1]
      rw [fill_go_frame rest _ _ r c (by rw [hstep]; exact hne), hstep]
    next hE =>
      exact fill_go_frame rest g rng r c hne

/-- After the fill loop, every in-range cell either kept a non-`EMPTY`
value or holds a single uppercase fill letter, provided the loop visits
every in-range coordinate that is still `EMPTY`. -/
theorem fill_go_post :
    ∀ (todo : List (Nat × Nat)) (g : Grid) (rng : Rng), grid_wf g →
      (∀ r c, r < g.length → c < g.length → cellAt g r c = EMPTY →
        (r, c) ∈ todo) →
      (∀ p ∈ todo, p.1 < g.length ∧ p.2 < g.length) →
      ∀ r c, r < g.length → c < g.length →
        (cellAt (fill_go g rng todo).1 r c = cellAt g r c ∧
          cellAt g r c ≠ EMPTY) ∨
        (∃ ch ∈ ascii_uppercase, cellAt (fill_go g rng todo).1 r c = [ch])
  | [], g, rng, hwf, hcover, htodo, r, c, hr, hc => by
    by_cases hE : cellAt g r c = EMPTY
    · exact absurd (hcover r c hr hc hE) (by simp)
    · exact Or.inl ⟨rfl, hE⟩
  | (a, b) :: rest, g, rng, hwf, hcover, htodo, r, c, hr, hc => by
    have hab := htodo (a, b) (List.mem_cons_self _ _)
    simp only [fill_go]
    split
    next hE =>
      have hch : (choice ascii_uppercase rng).1 ∈ ascii_uppercase :=
        choice_mem (by simp [ascii_uppercase]) rng
      have hwf1 := grid_wf_setAt hwf a b [(choice ascii_uppercase rng).1]
      have hlen1 := length_setAt g a b [(choice ascii_uppercase rng).1]
      have hcover1 : ∀ r' c',
          r' < (setAt g a b [(choice ascii_uppercase rng).1]).length →
          c' < (setAt g a b [(choice ascii_uppercase rng).1]).length →
          cellAt (setAt g a b [(choice ascii_uppercase rng).1]) r' c' = EMPTY →
          (r', c') ∈ rest := by
        intro r' c' hr' hc' hE'
        rw [hlen1] at hr' hc'
        by_cases heq : a = r' ∧ b = c'
        · obtain ⟨rfl, rfl⟩ := heq
          rw [cellAt_setAt_self hwf hab.1 hab.2] at hE'
          exact absurd hE' (single_ne_EMPTY _)
        · rw [cellAt_setAt_ne (not_and_or.mp heq) _] at hE'
          have hmem := hcover r' c' hr' hc' hE'
          rcases List.mem_cons.mp hmem with hhd | htl
          · exfalso
            injection hhd with h1 h2
            exact heq ⟨h1.symm, h2.symm⟩
          · exact htl
      have hrec := fill_go_post rest
        (setAt g a b [(choice ascii_uppercase rng).1])
        (choice ascii_uppercase rng).2 hwf1
        hcover1
        (by
          intro p hp
          rw [hlen1]
          exact htodo p (List.mem_cons_of_mem _ hp)) r c
        (by rw [hlen1]; exact hr) (by rw [hlen1]; exact hc)
      rcases hrec with ⟨hunch, hne⟩ | hfill
      · by_cases heq : a = r ∧ b = c
        · obtain ⟨rfl, rfl⟩ := heq
          refine Or.inr ⟨(choice ascii_uppercase rng).1, hch, ?_⟩
          rw [hunch, cellAt_setAt_self hwf hab.1 hab.2]
        · rw [cellAt_setAt_ne (not_and_or.mp heq) _] at hunch hne
          exact Or.inl ⟨hunch, hne⟩
      · exact Or.inr hfill
    next hE =>
      have hcover' : ∀ r' c', r' < g.length → c' < g.length →
          cellAt g r' c' = EMPTY → (r', c') ∈ rest := by
        intro r' c' hr' hc' hE'
        rcases List.mem_cons.mp (hcover r' c' hr' hc' hE') with hhd | htl
        · exfalso
          injection hhd with h1 h2
          subst h1
          subst h2
          exact hE hE'
        · exact htl
      exact fill_go_post rest g _ hwf hcover'
        (fun p hp => htodo p (List.mem_cons_of_mem _ hp)) r c hr hc

/-- The fill stage only grows the grid. -/
theorem fill_grows (g : Grid) (rng : Rng) :
    grows g (fill_empty_with_random_letters g rng).1 := by
  refine ⟨fill_go_length _ g rng, ?_⟩
  intro x y hne
  exact fill_go_frame _ g rng x.toNat y.toNat hne

/-- After the fill stage, every in-range cell either kept a non-`EMPTY`
value or holds a single uppercase letter. -/
theorem fill_result {g : Grid} (hwf : grid_wf g) (rng : Rng) :
    ∀ r c : Nat, r < g.length → c < g.length →
      (cellAt (fill_empty_with_random_letters g rng).1 r c = cellAt g r c ∧
        cellAt g r c ≠ EMPTY) ∨
      (∃ ch ∈ ascii_uppercase,
        cellAt (fill_empty_with_random_letters g rng).1 r c = [ch]) := by
  intro r c hr hc
  apply fill_go_post _ g rng hwf ?_ ?_ r c hr hc
  · intro r' c' hr' hc' hE
    simp only [List.mem_flatMap, List.mem_map, List.mem_range]
    exact ⟨r', hr', c', hc', rfl⟩
  · intro p hp
    simp only [List.mem_flatMap, List.mem_map, List.mem_range] at hp
    rcases hp with ⟨r', hr', c', hc', rfl⟩
    exact ⟨hr', hc'⟩

/-! ## Normalisation -/

theorem clean_word_nil_of_strip_nil {w : List Char} (h : py_strip w = []) :
    clean_word w = [] := by
  simp [clean_word, h]

theorem mem_normalize_of_clean {words : List (List Char)} {w : List Char}
    (hw : w ∈ words) (hne : clean_word w ≠ []) :
    clean_word w ∈ normalize_words words := by
  unfold normalize_words
  apply List.mem_map_of_mem
  rw [List.mem_filter]
  refine ⟨hw, ?_⟩
  have hstrip : py_strip w ≠ [] :=
    fun hnil => hne (clean_word_nil_of_strip_nil hnil)
  simp [List.isEmpty_eq_false, hstrip]

/-! ## Top-level equations for `generate_wordsearch` -/

theorem backtrack_place_words_zero (g : Grid) (ws : List (List Char))
    (dirs : List Direction) (rng : Rng) :
    backtrack_place_words g ws 0 dirs rng = backtrack_go dirs ws g rng := by
  rw [backtrack_place_words, List.drop_zero]

theorem generate_eq (words : List (List Char)) (size : Nat) (allow : Bool)
    (mt : Nat → Nat → Nat) (seed : Nat) :
    generate_wordsearch words size allow mt seed =
      if (backtrack_place_words (make_empty_grid size)
            (sort_len_desc (normalize_words words)) 0
            (if allow then DIRECTIONS_8 else [(0, 1), (0, -1), (1, 0), (-1, 0)])
            ⟨mt seed, 0⟩).1
      then some (fill_empty_with_random_letters
          (backtrack_place_words (make_empty_grid size)
            (sort_len_desc (normalize_words words)) 0
            (if allow then DIRECTIONS_8 else [(0, 1), (0, -1), (1, 0), (-1, 0)])
            ⟨mt seed, 0⟩).2.1
          (backtrack_place_words (make_empty_grid size)
            (sort_len_desc (normalize_words words)) 0
            (if allow then DIRECTIONS_8 else [(0, 1), (0, -1), (1, 0), (-1, 0)])
            ⟨mt seed, 0⟩).2.2).1
      else none := rfl

/-! ## The claims -/

/-- C2: `can_place_word` returns true if and only if for every index `i` of
the word, the cell `(r + i·dr, c + i·dc)` is in bounds of the grid and is
either the empty marker or already holds the word's `i`-th letter. -/
theorem claim_C2 (g : Grid) (w : List Char) (r c dr dc : Int) :
    can_place_word g w r c dr dc = true ↔
      ∀ i < w.length,
        in_bounds g.length (r + (i : Int) * dr) (c + (i : Int) * dc) = true ∧
          (getCell g (r + (i : Int) * dr) (c + (i : Int) * dc) = EMPTY ∨
            getCell g (r + (i : Int) * dr) (c + (i : Int) * dc)
              = [w.getD i 'A']) :=
  can_place_word_iff g w r c dr dc

/-- C3: for every well-formed grid, word, start cell and direction passing
`can_place_word`, placing the word and undoing the returned change set
restores the grid exactly. -/
theorem claim_C3 {g : Grid} (hwf : grid_wf g) (w : List Char)
    {r c dr dc : Int} (hcp : can_place_word g w r c dr dc = true) :
    undo_changes (place_word g w r c dr dc).1 (place_word g w r c dr dc).2
      = g :=
  place_undo_roundtrip hwf w hcp

/-- Witness for C3 at a concrete placement on a 1×1 grid. -/
theorem claim_C3_witness :
    undo_changes (place_word [[EMPTY]] ['A'] 0 0 0 1).1
      (place_word [[EMPTY]] ['A'] 0 0 0 1).2 = [[EMPTY]] :=
  claim_C3 (by unfold grid_wf; decide) ['A'] (by decide)

/-- C4: `undo_changes` sets exactly the in-bounds coordinates of the change
set to the empty marker and leaves every other cell unchanged. -/
theorem claim_C4 {g : Grid} (hwf : grid_wf g) {changed : List (Int × Int)}
    (hb : ∀ p ∈ changed, in_bounds g.length p.1 p.2 = true)
    {x y : Int} (hxy : in_bounds g.length x y = true) :
    ((x, y) ∈ changed → getCell (undo_changes g changed) x y = EMPTY) ∧
      ((x, y) ∉ changed →
        getCell (undo_changes g changed) x y = getCell g x y) := by
  rw [undo_changes_getCell changed g hwf hb x y]
  constructor
  · intro hmem
    rw [if_pos ⟨(x, y), hmem, rfl, rfl⟩]
  · intro hmem
    rw [if_neg]
    intro hcon
    rcases hcon with ⟨p, hp, h1, h2⟩
    rcases in_bounds_iff.mp (hb p hp) with ⟨q1, q2, q3, q4⟩
    rcases in_bounds_iff.mp hxy with ⟨w1, w2, w3, w4⟩
    apply hmem
    have e1 : x = p.1 := by omega
    have e2 : y = p.2 := by omega
    rw [e1, e2]
    simpa using hp

/-- Witness for C4 at a concrete change set on a 1×1 grid. -/
theorem claim_C4_witness :
    getCell (undo_changes [[['A']]] [((0 : Int), (0 : Int))]) 0 0 = EMPTY :=
  (@claim_C4 [[['A']]] (by unfold grid_wf; decide) [((0 : Int), (0 : Int))]
    (by decide) 0 0 (by decide)).1 (by decide)

/-- C5: `all_possible_placements` returns exactly the triples ranging over
every grid cell and every listed non-zero direction for which
`can_place_word` succeeds: every such triple is in the result and every
element of the result is such a triple. -/
theorem claim_C5 (g : Grid) (word : List Char) (dirs : List Direction)
    (r c : Int) (d : Direction) :
    (r, c, d) ∈ all_possible_placements g word dirs ↔
      0 ≤ r ∧ r < (g.length : Int) ∧ 0 ≤ c ∧ c < (g.length : Int) ∧
        d ∈ dirs ∧ ¬(d.1 = 0 ∧ d.2 = 0) ∧
        can_place_word g word r c d.1 d.2 = true :=
  mem_all_possible

/-- C7: for a fixed RNG implementation, word list, size and diagonal flag,
equal seeds give identical grids — the generator is a pure function of its
arguments, all randomness coming from the seeded stream. -/
theorem claim_C7 (words : List (List Char)) (size : Nat) (allow : Bool)
    (mt : Nat → Nat → Nat) (s₁ s₂ : Nat) (h : s₁ = s₂) :
    generate_wordsearch words size allow mt s₁
      = generate_wordsearch words size allow mt s₂ := by
  rw [h]

/-- Witness for C7 at a concrete call. -/
theorem claim_C7_witness :
    generate_wordsearch [['A']] 1 true (fun _ _ => 0) 0
      = generate_wordsearch [['A']] 1 true (fun _ _ => 0) 0 :=
  claim_C7 [['A']] 1 true (fun _ _ => 0) 0 0 rfl

/-- C10: whenever `backtrack_place_words` returns false, the grid is exactly
in the state it had when the call was entered. -/
theorem claim_C10 {g : Grid} (hwf : grid_wf g) (words : List (List Char))
    (idx : Nat) (dirs : List Direction) (rng : Rng)
    (hfail : (backtrack_place_words g words idx dirs rng).1 = false) :
    (backtrack_place_words g words idx dirs rng).2.1 = g :=
  backtrack_go_fail (words.drop idx) dirs g rng hwf hfail

/-- Witness for C10 at a concrete failing search on a 1×1 grid. -/
theorem claim_C10_witness :
    (backtrack_place_words [[EMPTY]] [['A'], ['B', 'C']] 0 DIRECTIONS_8
        ⟨fun _ => 0, 0⟩).2.1 = [[EMPTY]] :=
  claim_C10 (by unfold grid_wf; decide) [['A'], ['B', 'C']] 0 DIRECTIONS_8
    ⟨fun _ => 0, 0⟩ (by decide)

theorem getCell_natCast (g : Grid) (r c : Nat) :
    getCell g (r : Int) (c : Int) = cellAt g r c := by
  simp [getCell]

/-- C1: every grid returned successfully by `generate_wordsearch` contains
every normalized input word contiguously along one of the permitted
directions (8 with diagonals, else the 4 axis-aligned ones), matching the
grid exactly at those positions. -/
theorem claim_C1 {words : List (List Char)} {size : Nat} {allow : Bool}
    {mt : Nat → Nat → Nat} {seed : Nat} {grid : Grid}
    (h : generate_wordsearch words size allow mt seed = some grid) :
    ∀ v ∈ normalize_words words,
      appears grid v
        (if allow then DIRECTIONS_8 else [(0, 1), (0, -1), (1, 0), (-1, 0)]) := by
  intro v hv
  rw [generate_eq, backtrack_place_words_zero] at h
  by_cases hflag : (backtrack_go
      (if allow then DIRECTIONS_8 else [(0, 1), (0, -1), (1, 0), (-1, 0)])
      (sort_len_desc (normalize_words words)) (make_empty_grid size)
      ⟨mt seed, 0⟩).1 = true
  · rw [if_pos hflag] at h
    injection h with h
    subst h
    have post := backtrack_go_post (sort_len_desc (normalize_words words))
      (if allow then DIRECTIONS_8 else [(0, 1), (0, -1), (1, 0), (-1, 0)])
      (make_empty_grid size) ⟨mt seed, 0⟩ (grid_wf_make_empty size) hflag
    have happ := post.2.2.1 v (mem_sort_len_desc.mpr hv)
    exact appears_mono (fill_grows _ _) happ
  · rw [if_neg hflag] at h
    exact absurd h (by simp)

/-- Witness for C1 at a concrete successful generation. -/
theorem claim_C1_witness :
    appears [[['A']]] ['A'] DIRECTIONS_8 :=
  @claim_C1 [['A']] 1 true (fun _ _ => 0) 0 [[['A']]] (by decide) ['A']
    (by decide)

/-- C6: `generate_wordsearch` reports its fatal error (modelled as `none`)
exactly when the backtracking search cannot place all normalized words; on
failure no grid at all is returned, and on success it returns the completed
(filled) grid. -/
theorem claim_C6 (words : List (List Char)) (size : Nat) (allow : Bool)
    (mt : Nat → Nat → Nat) (seed : Nat) :
    (generate_wordsearch words size allow mt seed = none ↔
      (backtrack_place_words (make_empty_grid size)
          (sort_len_desc (normalize_words words)) 0
          (if allow then DIRECTIONS_8 else [(0, 1), (0, -1), (1, 0), (-1, 0)])
          ⟨mt seed, 0⟩).1 = false) ∧
      ((backtrack_place_words (make_empty_grid size)
          (sort_len_desc (normalize_words words)) 0
          (if allow then DIRECTIONS_8 else [(0, 1), (0, -1), (1, 0), (-1, 0)])
          ⟨mt seed, 0⟩).1 = true →
        generate_wordsearch words size allow mt seed
          = some (fill_empty_with_random_letters
              (backtrack_place_words (make_empty_grid size)
                (sort_len_desc (normalize_words words)) 0
                (if allow then DIRECTIONS_8
                  else [(0, 1), (0, -1), (1, 0), (-1, 0)])
                ⟨mt seed, 0⟩).2.1
              (backtrack_place_words (make_empty_grid size)
                (sort_len_desc (normalize_words words)) 0
                (if allow then DIRECTIONS_8
                  else [(0, 1), (0, -1), (1, 0), (-1, 0)])
                ⟨mt seed, 0⟩).2.2).1) := by
  rw [generate_eq]
  cases hflag : (backtrack_place_words (make_empty_grid size)
      (sort_len_desc (normalize_words words)) 0
      (if allow then DIRECTIONS_8 else [(0, 1), (0, -1), (1, 0), (-1, 0)])
      ⟨mt seed, 0⟩).1 <;> simp [hflag]

/-- Witness for C6: a word that fits nowhere makes the search fail, and the
generator then returns no grid at all. -/
theorem claim_C6_witness :
    generate_wordsearch [['A', 'B']] 1 true (fun _ _ => 0) 0 = none :=
  (claim_C6 [['A', 'B']] 1 true (fun _ _ => 0) 0).1.mpr (by decide)

/-- C9: a word longer than the grid allows no candidate placement in any
direction, and a word list containing such a word (after normalisation)
makes `generate_wordsearch` raise the fatal placement error. -/
theorem claim_C9 (g : Grid) (word : List Char) (dirs : List Direction)
    (hlong : g.length < word.length) (words : List (List Char)) (size : Nat)
    (allow : Bool) (mt : Nat → Nat → Nat) (seed : Nat) (w : List Char)
    (hw : w ∈ words) (hlong2 : size < (clean_word w).length) :
    all_possible_placements g word dirs = [] ∧
      generate_wordsearch words size allow mt seed = none := by
  refine ⟨all_possible_nil_of_long hlong, ?_⟩
  rw [generate_eq, backtrack_place_words_zero]
  have hvne : clean_word w ≠ [] := by
    intro hnil
    rw [hnil] at hlong2
    simp at hlong2
  have hmem : clean_word w ∈ sort_len_desc (normalize_words words) :=
    mem_sort_len_desc.mpr (mem_normalize_of_clean hw hvne)
  have hfail := backtrack_go_long_fail (sort_len_desc (normalize_words words))
    (if allow then DIRECTIONS_8 else [(0, 1), (0, -1), (1, 0), (-1, 0)])
    (make_empty_grid size) ⟨mt seed, 0⟩
    ⟨clean_word w, hmem, by rw [length_make_empty]; exact hlong2⟩
  rw [if_neg (by simp [hfail])]

/-- Witness for C9 at a concrete overlong word. -/
theorem claim_C9_witness :
    all_possible_placements [[EMPTY]] ['A', 'B'] DIRECTIONS_8 = [] ∧
      generate_wordsearch [['A', 'B']] 1 true (fun _ _ => 0) 0 = none :=
  claim_C9 [[EMPTY]] ['A', 'B'] DIRECTIONS_8 (by decide) [['A', 'B']] 1 true
    (fun _ _ => 0) 0 ['A', 'B'] (by decide) (by decide)

theorem fill_length (g : Grid) (rng : Rng) :
    (fill_empty_with_random_letters g rng).1.length = g.length :=
  fill_go_length _ g rng

theorem fill_wf {g : Grid} (hwf : grid_wf g) (rng : Rng) :
    grid_wf (fill_empty_with_random_letters g rng).1 :=
  fill_go_wf _ g rng hwf

/-- Counterexample to C8 as stated: words are only uppercased, not checked
to be alphabetic, so the word `"1"` is placed verbatim and the returned 1×1
grid's only cell holds the digit `'1'`, which is not an uppercase letter. -/
theorem claim_C8_counterexample :
    generate_wordsearch [['1']] 1 true (fun _ _ => 0) 0 = some [[['1']]] ∧
      cellAt [[['1']]] 0 0 = ['1'] ∧ '1' ∉ ascii_uppercase := by
  decide

/-- C8 (amended): if every character of every normalized word is an
uppercase letter A–Z, then every cell of a successfully returned N×N grid
holds a single uppercase letter from A–Z (in particular no empty markers
remain). -/
theorem claim_C8 {words : List (List Char)} {size : Nat} {allow : Bool}
    {mt : Nat → Nat → Nat} {seed : Nat} {grid : Grid}
    (h : generate_wordsearch words size allow mt seed = some grid)
    (hAZ : ∀ w ∈ normalize_words words, ∀ ch ∈ w, ch ∈ ascii_uppercase) :
    grid.length = size ∧ (∀ row ∈ grid, row.length = size) ∧
      ∀ r c : Nat, r < size → c < size →
        ∃ ch ∈ ascii_uppercase, cellAt grid r c = [ch] := by
  rw [generate_eq, backtrack_place_words_zero] at h
  by_cases hflag : (backtrack_go
      (if allow then DIRECTIONS_8 else [(0, 1), (0, -1), (1, 0), (-1, 0)])
      (sort_len_desc (normalize_words words)) (make_empty_grid size)
      ⟨mt seed, 0⟩).1 = true
  · rw [if_pos hflag] at h
    injection h with h
    have post := backtrack_go_post (sort_len_desc (normalize_words words))
      (if allow then DIRECTIONS_8 else [(0, 1), (0, -1), (1, 0), (-1, 0)])
      (make_empty_grid size) ⟨mt seed, 0⟩ (grid_wf_make_empty size) hflag
    have hwf1 := post.1
    have hlen1 : (backtrack_go
        (if allow then DIRECTIONS_8 else [(0, 1), (0, -1), (1, 0), (-1, 0)])
        (sort_len_desc (normalize_words words)) (make_empty_grid size)
        ⟨mt seed, 0⟩).2.1.length = size := by
      rw [backtrack_go_length, length_make_empty]
    have hglen : grid.length = size := by
      rw [← h, fill_length, hlen1]
    refine ⟨hglen, ?_, ?_⟩
    · intro row hrow
      have hfwf : grid_wf grid := by
        rw [← h]
        exact fill_wf hwf1 _
      rw [hfwf row hrow, hglen]
    · intro r c hr hc
      have hfr := fill_result hwf1 (backtrack_go
          (if allow then DIRECTIONS_8 else [(0, 1), (0, -1), (1, 0), (-1, 0)])
          (sort_len_desc (normalize_words words)) (make_empty_grid size)
          ⟨mt seed, 0⟩).2.2 r c (by omega) (by omega)
      rw [h] at hfr
      rcases hfr with ⟨hunch, hne⟩ | hfill
      · by_cases hsame : getCell (backtrack_go
            (if allow then DIRECTIONS_8 else [(0, 1), (0, -1), (1, 0), (-1, 0)])
            (sort_len_desc (normalize_words words)) (make_empty_grid size)
            ⟨mt seed, 0⟩).2.1 (r : Int) (c : Int)
            = getCell (make_empty_grid size) (r : Int) (c : Int)
        · exfalso
          apply hne
          rw [← getCell_natCast, hsame, getCell_natCast,
            cellAt_make_empty hr hc]
        · rcases post.2.2.2 (r : Int) (c : Int) hsame with ⟨w, hw, ch, hch, hv⟩
          refine ⟨ch, hAZ w (mem_sort_len_desc.mp hw) ch hch, ?_⟩
          rw [hunch, ← getCell_natCast]
          exact hv
      · exact hfill
  · rw [if_neg hflag] at h
    exact absurd h (by simp)

/-- Witness for the amended C8 at a concrete successful generation. -/
theorem claim_C8_witness :
    ([[['A']]] : Grid).length = 1 ∧
      (∀ row ∈ ([[['A']]] : Grid), row.length = 1) ∧
      ∀ r c : Nat, r < 1 → c < 1 →
        ∃ ch ∈ ascii_uppercase, cellAt [[['A']]] r c = [ch] :=
  @claim_C8 [['A']] 1 true (fun _ _ => 0) 0 [[['A']]] (by decide) (by decide)
